import Mathlib

/-
Cache cleaning of yay (clean.go).

A shallow embedding of `cleanAUR`, `cleanUntracked` and `cleanAfter` from
`clean.go`.  The three functions are sequences of calls into the operating
system, git and the AUR.  Those collaborators are not part of the file, so the
embedding takes them as the fields of a `Sys` record over an arbitrary world
state `σ`: each call reads the current world, yields an outcome and a new
world.  Every call a function makes is written, with its outcome, to a trace
in the order the code makes it.  Console output (`fmt.Println`, `fmt.Printf`,
`fmt.Fprintf`) is not modelled.

Statements about what a function does to the collaborators compare its run
with `Sys.performAll`, which makes a given list of calls on the collaborators
one after the other: the run's trace must be the answers the collaborators
gave and its world the world those calls leave.
-/

namespace Yay

/-- A Go `error` value, identified by its message. -/
abbrev Error := String

/-- The part of `os.FileInfo` that `clean.go` reads: `Name()` and `IsDir()`. -/
structure FileInfo where
  name : String
  isDir : Bool
deriving DecidableEq, Repr

/-- The part of `alpm.Package` that `clean.go` reads: `Name()` and `Base()`. -/
structure AlpmPackage where
  name : String
  base : String
deriving DecidableEq, Repr

/-- The part of an `rpc.Pkg` record that `clean.go` reads, with its name. -/
structure RpcPkg where
  name : String
  packageBase : String
deriving DecidableEq, Repr

/-- The part of `dep.Base` that `clean.go` reads: `Pkgbase()`. -/
structure Base where
  pkgbase : String
deriving DecidableEq, Repr

/-- Modelled from the spec: `generic.StringSet`, whose declaration is not in
`clean.go`.  The spec calls it a set of package bases with a membership test;
here it is the list of the strings that were `Set`, newest first. -/
abbrev StringSet := List String

/-- The result of `make(generic.StringSet)`. -/
def StringSet.make : StringSet := []

/-- The method `Set` of `generic.StringSet`: add one string. -/
def StringSet.Set (s : StringSet) (v : String) : StringSet := v :: s

/-- The method `Get` of `generic.StringSet`: membership test. -/
def StringSet.Get (s : StringSet) (v : String) : Bool := decide (v ∈ s)

/-- One call into a collaborator, with the outcome the call had. -/
inductive Event where
  | filterPackages (res : Except Error (List AlpmPackage))
  | readDir (dir : String) (res : Except Error (List FileInfo))
  | aurInfo (names : List String) (res : Except Error (List RpcPkg))
  | removeAll (path : String) (err : Option Error)
  | shouldUseGit (dir : String) (res : Bool)
  | gitCapture (dir : String) (args : List String) (err : Option Error)
  | gitShow (dir : String) (args : List String) (err : Option Error)

/-- The collaborators of `clean.go` over a world state `σ`.
* `buildDir` is `config.BuildDir`, `join` is `filepath.Join`;
* `filterPackages` yields the third-from-last result of `filterPackages()`
  (the remote packages) or its error;
* `readDir` is `ioutil.ReadDir`, `aurInfo` is `aurInfo(names, &aurWarnings{})`;
* `removeAll` is `os.RemoveAll`, `shouldUseGit` is `shouldUseGit`;
* `gitCapture dir args` is `exe.Capture(passToGit(dir, args...))` and
  `gitShow dir args` is `exe.Show(passToGit(dir, args...))`, each reduced to
  its error result. -/
structure Sys (σ : Type) where
  buildDir : String
  join : String → String → String
  filterPackages : σ → Except Error (List AlpmPackage) × σ
  readDir : String → σ → Except Error (List FileInfo) × σ
  aurInfo : List String → σ → Except Error (List RpcPkg) × σ
  removeAll : String → σ → Option Error × σ
  shouldUseGit : String → σ → Bool × σ
  gitCapture : String → List String → σ → Option Error × σ
  gitShow : String → List String → σ → Option Error × σ

/-- What a function leaves behind: its return value, the calls it made in
order, and the world after the last of them. -/
structure Run (σ : Type) (α : Type) where
  result : α
  trace : List Event
  world : σ

variable {σ : Type}

/-- Lines 124-131 of `cleanAUR`: the names of the directories among `files`,
in listing order. -/
def cachedPackagesOf : List FileInfo → List String
  | [] => []
  | file :: rest =>
    if !file.isDir then cachedPackagesOf rest
    else file.name :: cachedPackagesOf rest

/-- Lines 143-145 of `cleanAUR`: `inAURBases` after the loop over `info`,
started from `acc`. -/
def inAURBasesOf (acc : StringSet) : List RpcPkg → StringSet
  | [] => acc
  | pkg :: rest => inAURBasesOf (acc.Set pkg.packageBase) rest

/-- Lines 148-154 of `cleanAUR`: `installedBases` after the loop over
`remotePackages`, started from `acc`. -/
def installedBasesOf (acc : StringSet) : List AlpmPackage → StringSet
  | [] => acc
  | pkg :: rest =>
    if pkg.base != "" then installedBasesOf (acc.Set pkg.base) rest
    else installedBasesOf (acc.Set pkg.name) rest

/-- Lines 156-175 of `cleanAUR`: the loop over `files`.  It yields the calls
made and the world reached.  A failed `os.RemoveAll` leaves the loop and the
function through `return nil`, so the loop has no error to hand back. -/
def cleanAURLoop (S : Sys σ) (keepInstalled keepCurrent removeAll : Bool)
    (installedBases inAURBases : StringSet) : List FileInfo → σ → List Event × σ
  | [], w => ([], w)
  | file :: rest, w =>
    if !file.isDir then
      cleanAURLoop S keepInstalled keepCurrent removeAll installedBases inAURBases rest w
    else if !removeAll && (keepInstalled && installedBases.Get file.name) then
      cleanAURLoop S keepInstalled keepCurrent removeAll installedBases inAURBases rest w
    else if !removeAll && (keepCurrent && inAURBases.Get file.name) then
      cleanAURLoop S keepInstalled keepCurrent removeAll installedBases inAURBases rest w
    else
      match S.removeAll (S.join S.buildDir file.name) w with
      | (some err, w1) => ([Event.removeAll (S.join S.buildDir file.name) (some err)], w1)
      | (none, w1) =>
        let r := cleanAURLoop S keepInstalled keepCurrent removeAll installedBases inAURBases rest w1
        (Event.removeAll (S.join S.buildDir file.name) none :: r.1, r.2)

/-- The function `cleanAUR` of `clean.go` (lines 108-178).  The result is the
returned `error`, `none` for `nil`. -/
def cleanAUR (S : Sys σ) (keepInstalled keepCurrent removeAll : Bool) (w : σ) :
    Run σ (Option Error) :=
  match S.filterPackages w with
  | (Except.error err, w1) => ⟨some err, [Event.filterPackages (Except.error err)], w1⟩
  | (Except.ok remotePackages, w1) =>
    match S.readDir S.buildDir w1 with
    | (Except.error err, w2) =>
      ⟨some err, [Event.filterPackages (Except.ok remotePackages),
        Event.readDir S.buildDir (Except.error err)], w2⟩
    | (Except.ok files, w2) =>
      if keepCurrent then
        match S.aurInfo (cachedPackagesOf files) w2 with
        | (Except.error err, w3) =>
          ⟨some err, [Event.filterPackages (Except.ok remotePackages),
            Event.readDir S.buildDir (Except.ok files),
            Event.aurInfo (cachedPackagesOf files) (Except.error err)], w3⟩
        | (Except.ok info, w3) =>
          let r := cleanAURLoop S keepInstalled keepCurrent removeAll
            (installedBasesOf StringSet.make remotePackages)
            (inAURBasesOf StringSet.make info) files w3
          ⟨none, Event.filterPackages (Except.ok remotePackages) ::
            Event.readDir S.buildDir (Except.ok files) ::
            Event.aurInfo (cachedPackagesOf files) (Except.ok info) :: r.1, r.2⟩
      else
        let r := cleanAURLoop S keepInstalled keepCurrent removeAll
          (installedBasesOf StringSet.make remotePackages) StringSet.make files w2
        ⟨none, Event.filterPackages (Except.ok remotePackages) ::
          Event.readDir S.buildDir (Except.ok files) :: r.1, r.2⟩

/-- Lines 188-199 of `cleanUntracked`: the loop over `files`, with the error
it returns through `return err`, `none` when it runs to its end. -/
def cleanUntrackedLoop (S : Sys σ) : List FileInfo → σ → Run σ (Option Error)
  | [], w => ⟨none, [], w⟩
  | file :: rest, w =>
    if !file.isDir then cleanUntrackedLoop S rest w
    else
      match S.shouldUseGit (S.join S.buildDir file.name) w with
      | (true, w1) =>
        match S.gitShow (S.join S.buildDir file.name) ["clean", "-fx"] w1 with
        | (some err, w2) =>
          ⟨some err, [Event.shouldUseGit (S.join S.buildDir file.name) true,
            Event.gitShow (S.join S.buildDir file.name) ["clean", "-fx"] (some err)], w2⟩
        | (none, w2) =>
          let r := cleanUntrackedLoop S rest w2
          ⟨r.result, Event.shouldUseGit (S.join S.buildDir file.name) true ::
            Event.gitShow (S.join S.buildDir file.name) ["clean", "-fx"] none :: r.trace,
            r.world⟩
      | (false, w1) =>
        let r := cleanUntrackedLoop S rest w1
        ⟨r.result, Event.shouldUseGit (S.join S.buildDir file.name) false :: r.trace, r.world⟩

/-- The function `cleanUntracked` of `clean.go` (lines 180-202). -/
def cleanUntracked (S : Sys σ) (w : σ) : Run σ (Option Error) :=
  match S.readDir S.buildDir w with
  | (Except.error err, w1) => ⟨some err, [Event.readDir S.buildDir (Except.error err)], w1⟩
  | (Except.ok files, w1) =>
    let r := cleanUntrackedLoop S files w1
    ⟨r.result, Event.readDir S.buildDir (Except.ok files) :: r.trace, r.world⟩

/-- The function `cleanAfter` of `clean.go` (lines 204-225).  It returns
nothing, so it yields the calls made and the world reached. -/
def cleanAfter (S : Sys σ) : List Base → σ → List Event × σ
  | [], w => ([], w)
  | base :: rest, w =>
    match S.shouldUseGit (S.join S.buildDir base.pkgbase) w with
    | (true, w1) =>
      match S.gitCapture (S.join S.buildDir base.pkgbase) ["reset", "--hard", "HEAD"] w1 with
      | (err, w2) =>
        match S.gitShow (S.join S.buildDir base.pkgbase) ["clean", "-fx"] w2 with
        | (err2, w3) =>
          let r := cleanAfter S rest w3
          (Event.shouldUseGit (S.join S.buildDir base.pkgbase) true ::
            Event.gitCapture (S.join S.buildDir base.pkgbase) ["reset", "--hard", "HEAD"] err ::
            Event.gitShow (S.join S.buildDir base.pkgbase) ["clean", "-fx"] err2 :: r.1, r.2)
    | (false, w1) =>
      match S.removeAll (S.join S.buildDir base.pkgbase) w1 with
      | (err, w2) =>
        let r := cleanAfter S rest w2
        (Event.shouldUseGit (S.join S.buildDir base.pkgbase) false ::
          Event.removeAll (S.join S.buildDir base.pkgbase) err :: r.1, r.2)

/-- The paths handed to `os.RemoveAll`, in call order. -/
def deletedPaths : List Event → List String
  | [] => []
  | Event.removeAll path _ :: rest => path :: deletedPaths rest
  | _ :: rest => deletedPaths rest

/-- The arguments of the calls of `aurInfo`, in call order. -/
def aurInfoCalls : List Event → List (List String)
  | [] => []
  | Event.aurInfo names _ :: rest => names :: aurInfoCalls rest
  | _ :: rest => aurInfoCalls rest

/-- Whether the call is one of the version-control calls: the probe
`shouldUseGit` or a git command. -/
def Event.isVcs : Event → Bool
  | Event.shouldUseGit _ _ => true
  | Event.gitCapture _ _ _ => true
  | Event.gitShow _ _ _ => true
  | _ => false

/-- Whether the call is an `os.RemoveAll` that returned an error. -/
def Event.isFailedRemove : Event → Bool
  | Event.removeAll _ (some _) => true
  | _ => false

/-- The directories on which `git clean -fx` was run, in call order. -/
def cleanedDirs : List Event → List String
  | [] => []
  | Event.gitShow dir ["clean", "-fx"] _ :: rest => dir :: cleanedDirs rest
  | _ :: rest => cleanedDirs rest

/-- Modelled from the spec: the collaborators of `clean.go` on a cache
directory, none of which is in `clean.go` (`filterPackages`, `aurInfo`,
`shouldUseGit`, `passToGit` and the standard library).  The spec has the
cache as one directory per package base under a root, and the remote index as
a bulk lookup by name.  Here they are a `Sys` whose world is the listing of
the cache root.
* `filterPackages` answers `pkgs`; `readDir` lists the world for the cache root;
* the remote index answers each name on its own: `aurInfo names` is the
  concatenation of `index n` over `names`;
* `os.RemoveAll p` fails with `failing p` when that is an error and otherwise
  takes the entry of path `p` out of the listing;
* `vcs` tells which paths hold a git checkout, `gitErr` is the outcome of a
  git command; neither changes the listing of the root.
Paths are `dir ++ "/" ++ name`, which is `filepath.Join` for a clean
directory and a plain entry name. -/
def cacheSys (buildDir : String) (pkgs : List AlpmPackage) (index : String → List RpcPkg)
    (failing : String → Option Error) (vcs : String → Bool)
    (gitErr : String → List String → Option Error) : Sys (List FileInfo) where
  buildDir := buildDir
  join := fun dir name => dir ++ "/" ++ name
  filterPackages := fun w => (Except.ok pkgs, w)
  readDir := fun dir w =>
    if dir = buildDir then (Except.ok w, w) else (Except.error "no such directory", w)
  aurInfo := fun names w => (Except.ok (names.flatMap index), w)
  removeAll := fun p w =>
    match failing p with
    | some err => (some err, w)
    | none => (none, w.filter (fun f => decide (buildDir ++ "/" ++ f.name ≠ p)))
  shouldUseGit := fun dir w => (vcs dir, w)
  gitCapture := fun dir args w => (gitErr dir args, w)
  gitShow := fun dir args w => (gitErr dir args, w)


/-- Whether the loop of `cleanAUR` passes over a directory of this name
without deleting it (lines 161-169). -/
def retained (keepInstalled keepCurrent removeAll : Bool)
    (installedBases inAURBases : StringSet) (name : String) : Bool :=
  (!removeAll && (keepInstalled && installedBases.Get name)) ||
    (!removeAll && (keepCurrent && inAURBases.Get name))

/-- A `Sys` without memory: every call answers from a fixed table, whatever
was called before. -/
def scriptedSys (buildDir : String) (pkgs : Except Error (List AlpmPackage))
    (listing : Except Error (List FileInfo))
    (remote : List String → Except Error (List RpcPkg))
    (failing : String → Option Error) (vcs : String → Bool)
    (gitErr : String → List String → Option Error) : Sys Unit where
  buildDir := buildDir
  join := fun dir name => dir ++ "/" ++ name
  filterPackages := fun w => (pkgs, w)
  readDir := fun _ w => (listing, w)
  aurInfo := fun names w => (remote names, w)
  removeAll := fun p w => (failing p, w)
  shouldUseGit := fun dir w => (vcs dir, w)
  gitCapture := fun dir args w => (gitErr dir args, w)
  gitShow := fun dir args w => (gitErr dir args, w)

/-- What `cleanAfter` does with one entry: a version-controlled one is reset
and cleaned, a plain one is deleted; each step with the outcome it had. -/
inductive Disposal where
  | versionControlled (resetErr cleanErr : Option Error)
  | plain (deleteErr : Option Error)

/-- The calls of one disposal on the directory `dir`, the probe first. -/
def Disposal.events (dir : String) : Disposal → List Event
  | Disposal.versionControlled resetErr cleanErr =>
    [Event.shouldUseGit dir true,
      Event.gitCapture dir ["reset", "--hard", "HEAD"] resetErr,
      Event.gitShow dir ["clean", "-fx"] cleanErr]
  | Disposal.plain deleteErr =>
    [Event.shouldUseGit dir false, Event.removeAll dir deleteErr]

/-- A cache root with three workspaces and a stray file, in listing order. -/
def demoFiles : List FileInfo :=
  [⟨"bar", true⟩, ⟨"baz", true⟩, ⟨"foo", true⟩, ⟨"notes.txt", false⟩]

/-- Installed remote packages: `foo` without a base of its own, `libqux` built
from the base `qux`. -/
def demoPkgs : List AlpmPackage := [⟨"foo", ""⟩, ⟨"libqux", "qux"⟩]

/-- A remote index that knows one package, `bar`, of base `bar`. -/
def demoIndex (n : String) : List RpcPkg := if n = "bar" then [⟨"bar", "bar"⟩] else []

/-- A remote index that knows one package, `bar`, built from the base `foo`:
one half of a split package without a package named after the base. -/
def splitIndex (n : String) : List RpcPkg := if n = "bar" then [⟨"bar", "foo"⟩] else []

/-- The demo cache root at `/c`, every call succeeding, nothing under git. -/
def demoSys : Sys Unit :=
  scriptedSys "/c" (Except.ok demoPkgs) (Except.ok demoFiles)
    (fun names => Except.ok (names.flatMap demoIndex)) (fun _ => none) (fun _ => false)
    (fun _ _ => none)

/-- The demo cache root when `/c` cannot be read. -/
def unreadableSys : Sys Unit :=
  scriptedSys "/c" (Except.ok demoPkgs) (Except.error "open /c: permission denied")
    (fun names => Except.ok (names.flatMap demoIndex)) (fun _ => none) (fun _ => false)
    (fun _ _ => none)

/-- The demo cache root when the AUR cannot be reached. -/
def offlineSys : Sys Unit :=
  scriptedSys "/c" (Except.ok demoPkgs) (Except.ok demoFiles)
    (fun _ => Except.error "rpc: connection refused") (fun _ => none) (fun _ => false)
    (fun _ _ => none)

/-- A cache root `/c` with the directories `a` and `b`, nothing installed;
`os.RemoveAll` fails on the paths `failing` names. -/
def twoDirSys (failing : String → Option Error) : Sys Unit :=
  scriptedSys "/c" (Except.ok []) (Except.ok [⟨"a", true⟩, ⟨"b", true⟩])
    (fun _ => Except.ok []) failing (fun _ => false) (fun _ _ => none)

/-- A cache root `/c` with the git checkouts `a` and `b`; every git command
run on `a` fails. -/
def brokenCheckoutSys : Sys Unit :=
  scriptedSys "/c" (Except.ok []) (Except.ok [⟨"a", true⟩, ⟨"b", true⟩])
    (fun _ => Except.ok []) (fun _ => none) (fun _ => true)
    (fun dir _ => if dir = "/c/a" then some "exit status 1" else none)

/-- A cache root `/c` listing the checkout `a`, the plain directory `p`, a
stray file, and the checkouts `b` and `c`; git commands run on `b` fail. -/
def mixedCheckoutSys : Sys Unit :=
  scriptedSys "/c" (Except.ok [])
    (Except.ok [⟨"a", true⟩, ⟨"notes.txt", false⟩, ⟨"p", true⟩, ⟨"b", true⟩, ⟨"c", true⟩])
    (fun _ => Except.ok []) (fun _ => none) (fun dir => decide (dir ≠ "/c/p"))
    (fun dir _ => if dir = "/c/b" then some "exit status 1" else none)

/-- A cache root `/c` where `bar` is a git checkout whose reset fails and whose
clean succeeds, and `baz` is a plain directory. -/
def afterSys : Sys Unit :=
  scriptedSys "/c" (Except.ok []) (Except.ok [⟨"bar", true⟩, ⟨"baz", true⟩])
    (fun _ => Except.ok []) (fun _ => none) (fun dir => decide (dir = "/c/bar"))
    (fun _ args => if args = ["reset", "--hard", "HEAD"] then some "exit status 128" else none)

/-- The demo cache root at `/c` as a cache directory on disk, every call
succeeding, nothing under git; its world is the listing of `/c`. -/
def demoCacheSys : Sys (List FileInfo) :=
  cacheSys "/c" demoPkgs demoIndex (fun _ => none) (fun _ => false) (fun _ _ => none)

/-- One call into a collaborator, before it is answered. -/
inductive Call where
  | filterPackages
  | readDir (dir : String)
  | aurInfo (names : List String)
  | removeAll (path : String)
  | shouldUseGit (dir : String)
  | gitCapture (dir : String) (args : List String)
  | gitShow (dir : String) (args : List String)

/-- The call an event is the answer to. -/
def Event.call : Event → Call
  | Event.filterPackages _ => Call.filterPackages
  | Event.readDir dir _ => Call.readDir dir
  | Event.aurInfo names _ => Call.aurInfo names
  | Event.removeAll path _ => Call.removeAll path
  | Event.shouldUseGit dir _ => Call.shouldUseGit dir
  | Event.gitCapture dir args _ => Call.gitCapture dir args
  | Event.gitShow dir args _ => Call.gitShow dir args

/-- Whether the call was answered with an error. -/
def Event.failed : Event → Bool
  | Event.filterPackages (Except.error _) => true
  | Event.readDir _ (Except.error _) => true
  | Event.aurInfo _ (Except.error _) => true
  | Event.removeAll _ (some _) => true
  | Event.gitCapture _ _ (some _) => true
  | Event.gitShow _ _ (some _) => true
  | _ => false

/-- Make one call on the collaborators in the world `w`: the event holds the
answer the collaborator gave, the second component is the world it left. -/
def Sys.perform (S : Sys σ) : Call → σ → Event × σ
  | Call.filterPackages, w => (Event.filterPackages (S.filterPackages w).1, (S.filterPackages w).2)
  | Call.readDir dir, w => (Event.readDir dir (S.readDir dir w).1, (S.readDir dir w).2)
  | Call.aurInfo names, w => (Event.aurInfo names (S.aurInfo names w).1, (S.aurInfo names w).2)
  | Call.removeAll path, w => (Event.removeAll path (S.removeAll path w).1, (S.removeAll path w).2)
  | Call.shouldUseGit dir, w =>
    (Event.shouldUseGit dir (S.shouldUseGit dir w).1, (S.shouldUseGit dir w).2)
  | Call.gitCapture dir args, w =>
    (Event.gitCapture dir args (S.gitCapture dir args w).1, (S.gitCapture dir args w).2)
  | Call.gitShow dir args, w =>
    (Event.gitShow dir args (S.gitShow dir args w).1, (S.gitShow dir args w).2)

/-- Make the calls one after the other, each in the world the one before it
left: the answers in order, and the world after the last call. -/
def Sys.performAll (S : Sys σ) : List Call → σ → List Event × σ
  | [], w => ([], w)
  | c :: cs, w =>
    ((S.perform c w).1 :: (Sys.performAll S cs (S.perform c w).2).1,
      (Sys.performAll S cs (S.perform c w).2).2)

/-- The calls of a run of `cleanAUR` that reads `files` in the cache root and
then deletes the entries `doomed`: the two reads, the one remote query when
`keepCurrent` is on, and one `os.RemoveAll` per doomed entry. -/
def cleanAURCalls (S : Sys σ) (keepCurrent : Bool) (files doomed : List FileInfo) : List Call :=
  Call.filterPackages :: Call.readDir S.buildDir ::
    ((if keepCurrent then
        [Call.aurInfo ((files.filter (fun f => f.isDir)).map (fun f => f.name))]
      else []) ++
      doomed.map (fun f => Call.removeAll (S.join S.buildDir f.name)))

/-- The retention table of the spec with `removeAll` off: a name is kept when
`keepInstalled` is on and it is in `installedBases`, or `keepCurrent` is on
and it is the package base of one of the records `info` of the remote query. -/
def keptByTable (keepInstalled keepCurrent : Bool) (installedBases : StringSet)
    (info : List RpcPkg) (name : String) : Bool :=
  (keepInstalled && installedBases.Get name) ||
    (keepCurrent && info.any (fun r => decide (r.packageBase = name)))

/-- The calls `cleanUntracked` makes for the entries `entries`, each given
with what the probe `shouldUseGit` says of it: nothing for a non-directory,
the probe for a directory, and `git clean -fx` after it for a checkout. -/
def untrackedCalls (S : Sys σ) : List (FileInfo × Bool) → List Call
  | [] => []
  | (file, checkout) :: rest =>
    if !file.isDir then untrackedCalls S rest
    else if checkout then
      Call.shouldUseGit (S.join S.buildDir file.name) ::
        Call.gitShow (S.join S.buildDir file.name) ["clean", "-fx"] :: untrackedCalls S rest
    else Call.shouldUseGit (S.join S.buildDir file.name) :: untrackedCalls S rest

/-- The answers to `untrackedCalls` when every probe answers as given and
every clean succeeds. -/
def untrackedEvents (S : Sys σ) : List (FileInfo × Bool) → List Event
  | [] => []
  | (file, checkout) :: rest =>
    if !file.isDir then untrackedEvents S rest
    else if checkout then
      Event.shouldUseGit (S.join S.buildDir file.name) true ::
        Event.gitShow (S.join S.buildDir file.name) ["clean", "-fx"] none ::
        untrackedEvents S rest
    else Event.shouldUseGit (S.join S.buildDir file.name) false :: untrackedEvents S rest

theorem StringSet.Get_Set (s : StringSet) (v x : String) :
    (s.Set v).Get x = true ↔ x = v ∨ s.Get x = true := by
  simp [StringSet.Set, StringSet.Get]

theorem installedBasesOf_Get (pkgs : List AlpmPackage) (acc : StringSet) (s : String) :
    (installedBasesOf acc pkgs).Get s = true ↔
      acc.Get s = true ∨
        ∃ p ∈ pkgs, (p.base ≠ "" ∧ p.base = s) ∨ (p.base = "" ∧ p.name = s) := by
  induction pkgs generalizing acc with
  | nil => simp [installedBasesOf]
  | cons pkg rest ih =>
    by_cases hb : pkg.base = ""
    · simp only [installedBasesOf, hb, bne_self_eq_false, Bool.false_eq_true, if_false, ih,
        StringSet.Get_Set, List.exists_mem_cons_iff] 
      constructor
      · rintro (( rfl | h) | h)
        · exact Or.inr (Or.inl (Or.inr ⟨trivial, rfl⟩))
        · exact Or.inl h
        · exact Or.inr (Or.inr h)
      · rintro (h | (h | h) | h)
        · exact Or.inl (Or.inr h)
        · exact absurd rfl h.1
        · exact Or.inl (Or.inl h.2.symm)
        · exact Or.inr h
    · have hb2 : (pkg.base != "") = true := by simpa using hb
      simp only [installedBasesOf, hb2, if_true, ih, StringSet.Get_Set, List.exists_mem_cons_iff]
      constructor
      · rintro ((rfl | h) | h)
        · exact Or.inr (Or.inl (Or.inl ⟨hb, rfl⟩))
        · exact Or.inl h
        · exact Or.inr (Or.inr h)
      · rintro (h | (h | h) | h)
        · exact Or.inl (Or.inr h)
        · exact Or.inl (Or.inl h.2.symm)
        · exact absurd h.1 hb
        · exact Or.inr h

theorem inAURBasesOf_Get (info : List RpcPkg) (acc : StringSet) (s : String) :
    (inAURBasesOf acc info).Get s = true ↔
      acc.Get s = true ∨ ∃ r ∈ info, r.packageBase = s := by
  induction info generalizing acc with
  | nil => simp [inAURBasesOf]
  | cons pkg rest ih =>
    simp only [inAURBasesOf, ih, StringSet.Get_Set, List.exists_mem_cons_iff]
    constructor
    · rintro ((rfl | h) | h)
      · exact Or.inr (Or.inl rfl)
      · exact Or.inl h
      · exact Or.inr (Or.inr h)
    · rintro (h | h | h)
      · exact Or.inl (Or.inr h)
      · exact Or.inl (Or.inl h.symm)
      · exact Or.inr h

/-- C9: a string is in `installedBases` exactly when some installed remote
package has it as its non-empty base, or has an empty base and it as name. -/
theorem installedBases_iff (remotePackages : List AlpmPackage) (s : String) :
    (installedBasesOf StringSet.make remotePackages).Get s = true ↔
      ∃ p ∈ remotePackages, (p.base ≠ "" ∧ p.base = s) ∨ (p.base = "" ∧ p.name = s) := by
  rw [installedBasesOf_Get]
  simp [StringSet.make, StringSet.Get]

theorem cachedPackagesOf_eq (files : List FileInfo) :
    cachedPackagesOf files = (files.filter (fun f => f.isDir)).map (fun f => f.name) := by
  induction files with
  | nil => rfl
  | cons file rest ih =>
    cases h : file.isDir <;> simp [cachedPackagesOf, h, ih]

/-- Every call the loop of `cleanAUR` makes is an `os.RemoveAll`. -/
theorem cleanAURLoop_only_removeAll (S : Sys σ) (ki kc ra : Bool) (inst aur : StringSet)
    (files : List FileInfo) (w : σ) :
    ∀ ev ∈ (cleanAURLoop S ki kc ra inst aur files w).1, ∃ p e, ev = Event.removeAll p e := by
  induction files generalizing w with
  | nil => simp [cleanAURLoop]
  | cons file rest ih =>
    unfold cleanAURLoop
    split_ifs
    · exact ih w
    · exact ih w
    · exact ih w
    · rcases hrm : S.removeAll (S.join S.buildDir file.name) w with ⟨err, w1⟩
      cases err with
      | some err => simp
      | none =>
        intro ev hev
        simp only [List.mem_cons] at hev
        rcases hev with rfl | hev
        · exact ⟨_, _, rfl⟩
        · exact ih w1 ev hev

theorem no_query_no_vcs_of_only_removeAll (t : List Event)
    (h : ∀ ev ∈ t, ∃ p e, ev = Event.removeAll p e) :
    aurInfoCalls t = [] ∧ t.filter Event.isVcs = [] := by
  induction t with
  | nil => simp [aurInfoCalls]
  | cons ev rest ih =>
    obtain ⟨p, e, rfl⟩ := h ev (List.mem_cons_self _ _)
    have := ih (fun ev hev => h ev (List.mem_cons_of_mem _ hev))
    simp [aurInfoCalls, Event.isVcs, this]

/-- When no `os.RemoveAll` fails, the loop of `cleanAUR` deletes, in listing
order, the directories it does not retain. -/
theorem cleanAURLoop_deleted (S : Sys σ) (ki kc ra : Bool) (inst aur : StringSet)
    (files : List FileInfo) (w : σ)
    (h : ∀ ev ∈ (cleanAURLoop S ki kc ra inst aur files w).1, ev.isFailedRemove = false) :
    deletedPaths (cleanAURLoop S ki kc ra inst aur files w).1 =
      (files.filter (fun f => f.isDir && !retained ki kc ra inst aur f.name)).map
        (fun f => S.join S.buildDir f.name) := by
  induction files generalizing w with
  | nil => simp [cleanAURLoop, deletedPaths]
  | cons file rest ih =>
    unfold cleanAURLoop at h ⊢
    split_ifs at h ⊢ with h1 h2 h3
    · rw [ih w h]
      have : file.isDir = false := by simpa using h1
      simp [this]
    · rw [ih w h]
      have : retained ki kc ra inst aur file.name = true := by simp [retained, h2]
      simp [this]
    · rw [ih w h]
      have : retained ki kc ra inst aur file.name = true := by simp [retained, h3]
      simp [this]
    · have hd : file.isDir = true := by simpa using h1
      have hr : retained ki kc ra inst aur file.name = false := by
        simp only [retained, Bool.or_eq_false_iff]
        exact ⟨by simpa using h2, by simpa using h3⟩
      rcases hrm : S.removeAll (S.join S.buildDir file.name) w with ⟨err, w1⟩
      rw [hrm] at h
      cases err with
      | some err =>
        have := h (Event.removeAll (S.join S.buildDir file.name) (some err)) (by simp)
        simp [Event.isFailedRemove] at this
      | none =>
        simp only at h ⊢
        have ih1 := ih w1 (fun ev hev => h ev (List.mem_cons_of_mem _ hev))
        simp [deletedPaths, ih1, hd, hr]

/-- A failed `os.RemoveAll` is the last call of the loop of `cleanAUR`: the
loop is left through `return nil` and the rest of the listing is not visited. -/
theorem cleanAURLoop_stops_at_failed_delete (S : Sys σ) (ki kc ra : Bool)
    (inst aur : StringSet) (files : List FileInfo) (w : σ)
    (pre post : List Event) (path : String) (err : Error)
    (h : (cleanAURLoop S ki kc ra inst aur files w).1 =
      pre ++ Event.removeAll path (some err) :: post) :
    post = [] := by
  induction files generalizing w pre with
  | nil => simp [cleanAURLoop] at h
  | cons file rest ih =>
    unfold cleanAURLoop at h
    split_ifs at h
    · exact ih w pre h
    · exact ih w pre h
    · exact ih w pre h
    · rcases hrm : S.removeAll (S.join S.buildDir file.name) w with ⟨e, w1⟩
      rw [hrm] at h
      cases e with
      | some e =>
        simp only at h
        rcases pre with _ | ⟨p, pre⟩
        · simp only [List.nil_append, List.cons.injEq] at h
          exact h.2.symm
        · simp at h
      | none =>
        simp only at h
        rcases pre with _ | ⟨p, pre⟩
        · simp at h
        · simp only [List.cons_append, List.cons.injEq] at h
          exact ih w1 pre h.2

/-- The run of `cleanAUR` when both preliminary reads succeed and
`keepCurrent` is off. -/
theorem cleanAUR_of_not_keepCurrent (S : Sys σ) (ki ra : Bool) (w w1 w2 : σ)
    (pkgs : List AlpmPackage) (files : List FileInfo)
    (hfp : S.filterPackages w = (Except.ok pkgs, w1))
    (hrd : S.readDir S.buildDir w1 = (Except.ok files, w2)) :
    cleanAUR S ki false ra w =
      ⟨none, Event.filterPackages (Except.ok pkgs) :: Event.readDir S.buildDir (Except.ok files) ::
        (cleanAURLoop S ki false ra (installedBasesOf StringSet.make pkgs) StringSet.make
          files w2).1,
        (cleanAURLoop S ki false ra (installedBasesOf StringSet.make pkgs) StringSet.make
          files w2).2⟩ := by
  simp [cleanAUR, hfp, hrd]

/-- The run of `cleanAUR` when both preliminary reads and the remote query
succeed and `keepCurrent` is on. -/
theorem cleanAUR_of_keepCurrent (S : Sys σ) (ki ra : Bool) (w w1 w2 w3 : σ)
    (pkgs : List AlpmPackage) (files : List FileInfo) (info : List RpcPkg)
    (hfp : S.filterPackages w = (Except.ok pkgs, w1))
    (hrd : S.readDir S.buildDir w1 = (Except.ok files, w2))
    (hinfo : S.aurInfo (cachedPackagesOf files) w2 = (Except.ok info, w3)) :
    cleanAUR S ki true ra w =
      ⟨none, Event.filterPackages (Except.ok pkgs) :: Event.readDir S.buildDir (Except.ok files) ::
        Event.aurInfo (cachedPackagesOf files) (Except.ok info) ::
        (cleanAURLoop S ki true ra (installedBasesOf StringSet.make pkgs)
          (inAURBasesOf StringSet.make info) files w3).1,
        (cleanAURLoop S ki true ra (installedBasesOf StringSet.make pkgs)
          (inAURBasesOf StringSet.make info) files w3).2⟩ := by
  simp [cleanAUR, hfp, hrd, hinfo]

/-- When the preliminary queries and all deletions succeed, `cleanAUR`
deletes, in listing order, the directories its policy does not retain. -/
theorem cleanAUR_deleted (S : Sys σ) (ki kc ra : Bool) (w w1 w2 : σ)
    (pkgs : List AlpmPackage) (files : List FileInfo) (info : List RpcPkg)
    (hfp : S.filterPackages w = (Except.ok pkgs, w1))
    (hrd : S.readDir S.buildDir w1 = (Except.ok files, w2))
    (hinfo : kc = true → (S.aurInfo (cachedPackagesOf files) w2).1 = Except.ok info)
    (hdel : ∀ ev ∈ (cleanAUR S ki kc ra w).trace, ev.isFailedRemove = false) :
    deletedPaths (cleanAUR S ki kc ra w).trace =
      (files.filter (fun f => f.isDir && !retained ki kc ra (installedBasesOf StringSet.make pkgs)
        (if kc then inAURBasesOf StringSet.make info else StringSet.make) f.name)).map
        (fun f => S.join S.buildDir f.name) := by
  cases kc with
  | false =>
    rw [cleanAUR_of_not_keepCurrent S ki ra w w1 w2 pkgs files hfp hrd] at hdel ⊢
    simp only [deletedPaths]
    exact cleanAURLoop_deleted S ki false ra _ _ files w2
      (fun ev hev => hdel ev (List.mem_cons_of_mem _ (List.mem_cons_of_mem _ hev)))
  | true =>
    rcases haur : S.aurInfo (cachedPackagesOf files) w2 with ⟨res, w3⟩
    have hres : res = Except.ok info := by simpa [haur] using hinfo rfl
    subst hres
    rw [cleanAUR_of_keepCurrent S ki ra w w1 w2 w3 pkgs files info hfp hrd haur] at hdel ⊢
    simp only [deletedPaths]
    exact cleanAURLoop_deleted S ki true ra _ _ files w3
      (fun ev hev => hdel ev
        (List.mem_cons_of_mem _ (List.mem_cons_of_mem _ (List.mem_cons_of_mem _ hev))))

/-- C5: once `filterPackages` has answered, if reading the cache root fails,
or `keepCurrent` is on and the remote query fails, `cleanAUR` returns that
very error and has attempted no delete. -/
theorem cleanAUR_fatal_before_disposal (S : Sys σ) (keepInstalled keepCurrent removeAll : Bool)
    (w w1 : σ) (remotePackages : List AlpmPackage) (err : Error)
    (hfp : S.filterPackages w = (Except.ok remotePackages, w1))
    (hfatal : (S.readDir S.buildDir w1).1 = Except.error err ∨
      (keepCurrent = true ∧ ∃ files, (S.readDir S.buildDir w1).1 = Except.ok files ∧
        (S.aurInfo (cachedPackagesOf files) (S.readDir S.buildDir w1).2).1 = Except.error err)) :
    (cleanAUR S keepInstalled keepCurrent removeAll w).result = some err ∧
      deletedPaths (cleanAUR S keepInstalled keepCurrent removeAll w).trace = [] := by
  rcases hrd : S.readDir S.buildDir w1 with ⟨res, w2⟩
  rw [hrd] at hfatal
  rcases hfatal with h | ⟨hkc, files, hfiles, haur⟩
  · simp only at h
    subst h
    simp [cleanAUR, hfp, hrd, deletedPaths]
  · simp only at hfiles haur
    subst hfiles hkc
    rcases haur2 : S.aurInfo (cachedPackagesOf files) w2 with ⟨res3, w3⟩
    rw [haur2] at haur
    simp only at haur
    subst haur
    simp [cleanAUR, hfp, hrd, haur2, deletedPaths]


/-- The loop of `cleanAUR` makes no call when it retains every directory of
the listing. -/
theorem cleanAURLoop_nothing (S : Sys σ) (ki kc ra : Bool) (inst aur : StringSet)
    (files : List FileInfo) (w : σ)
    (h : ∀ f ∈ files, f.isDir = true → retained ki kc ra inst aur f.name = true) :
    (cleanAURLoop S ki kc ra inst aur files w).1 = [] := by
  induction files generalizing w with
  | nil => simp [cleanAURLoop]
  | cons file rest ih =>
    have ih1 := ih w (fun f hf => h f (List.mem_cons_of_mem _ hf))
    unfold cleanAURLoop
    split_ifs with h1 h2 h3
    · exact ih1
    · exact ih1
    · exact ih1
    · have hd : file.isDir = true := by simpa using h1
      have hr := h file (List.mem_cons_self _ _) hd
      simp only [retained, Bool.or_eq_true] at hr
      rcases hr with hr | hr
      · exact absurd hr h2
      · exact absurd hr h3

/-- On a cache directory, when no `os.RemoveAll` fails, the loop of `cleanAUR`
leaves the listing without the entries whose paths it deleted. -/
theorem cleanAURLoop_cacheSys_world (buildDir : String) (pkgs : List AlpmPackage)
    (index : String → List RpcPkg) (failing : String → Option Error) (vcs : String → Bool)
    (gitErr : String → List String → Option Error)
    (ki kc ra : Bool) (inst aur : StringSet) (files u : List FileInfo)
    (h : ∀ ev ∈ (cleanAURLoop (cacheSys buildDir pkgs index failing vcs gitErr)
      ki kc ra inst aur files u).1, ev.isFailedRemove = false) :
    (cleanAURLoop (cacheSys buildDir pkgs index failing vcs gitErr)
        ki kc ra inst aur files u).2 =
      u.filter (fun f => decide (buildDir ++ "/" ++ f.name ∉
        deletedPaths (cleanAURLoop (cacheSys buildDir pkgs index failing vcs gitErr)
          ki kc ra inst aur files u).1)) := by
  induction files generalizing u with
  | nil => simp [cleanAURLoop, deletedPaths]
  | cons file rest ih =>
    unfold cleanAURLoop at h ⊢
    split_ifs at h ⊢ with h1 h2 h3
    · exact ih u h
    · exact ih u h
    · exact ih u h
    · rcases hrm : (cacheSys buildDir pkgs index failing vcs gitErr).removeAll
        ((cacheSys buildDir pkgs index failing vcs gitErr).join
          (cacheSys buildDir pkgs index failing vcs gitErr).buildDir file.name) u with ⟨err, u1⟩
      rw [hrm] at h
      cases err with
      | some err =>
        have := h _ (List.mem_singleton.mpr rfl)
        simp [Event.isFailedRemove] at this
      | none =>
        simp only at h ⊢
        have hu1 : u1 = u.filter (fun f => decide (buildDir ++ "/" ++ f.name ≠
            buildDir ++ "/" ++ file.name)) := by
          simp only [cacheSys] at hrm
          cases hf : failing (buildDir ++ "/" ++ file.name) with
          | some e => simp [hf] at hrm
          | none =>
            simp only [hf, Prod.mk.injEq, true_and] at hrm
            exact hrm.symm
        rw [ih u1 (fun ev hev => h ev (List.mem_cons_of_mem _ hev)), hu1, List.filter_filter]
        congr 1
        funext f
        simp only [deletedPaths, cacheSys, List.mem_cons, not_or, Bool.decide_and,
          Bool.and_comm]

/-- C10 as the code has it: on a cache directory whose remote index answers
each name on its own, if a first run of `cleanAUR` has all its deletions
succeed, a second run with the same flags deletes nothing, provided that,
when `keepCurrent` decides (it is on and `removeAll` is off), every package
base the index reports for a cached directory name is also reported when the
index is asked for that base by name. -/
theorem cleanAUR_second_run_deletes_nothing (buildDir : String) (pkgs : List AlpmPackage)
    (index : String → List RpcPkg) (failing : String → Option Error) (vcs : String → Bool)
    (gitErr : String → List String → Option Error)
    (keepInstalled keepCurrent removeAll : Bool) (w : List FileInfo)
    (hidx : keepCurrent = true → removeAll = false →
      ∀ n ∈ cachedPackagesOf w, ∀ r ∈ index n,
        ∃ r2 ∈ index r.packageBase, r2.packageBase = r.packageBase)
    (hdel : ∀ ev ∈ (cleanAUR (cacheSys buildDir pkgs index failing vcs gitErr)
      keepInstalled keepCurrent removeAll w).trace, ev.isFailedRemove = false) :
    deletedPaths (cleanAUR (cacheSys buildDir pkgs index failing vcs gitErr)
      keepInstalled keepCurrent removeAll
      (cleanAUR (cacheSys buildDir pkgs index failing vcs gitErr)
        keepInstalled keepCurrent removeAll w).world).trace = [] := by
  have hfp : ∀ u : List FileInfo,
      (cacheSys buildDir pkgs index failing vcs gitErr).filterPackages u = (Except.ok pkgs, u) :=
    fun _ => rfl
  have hrd : ∀ u : List FileInfo,
      (cacheSys buildDir pkgs index failing vcs gitErr).readDir
        (cacheSys buildDir pkgs index failing vcs gitErr).buildDir u = (Except.ok u, u) := by
    intro u
    simp [cacheSys]
  have haur : ∀ u : List FileInfo,
      (cacheSys buildDir pkgs index failing vcs gitErr).aurInfo (cachedPackagesOf u) u =
        (Except.ok ((cachedPackagesOf u).flatMap index), u) := fun _ => rfl
  -- the entries left by the first run are the non-directories and the retained directories
  have hleft : ∀ f ∈ (cleanAUR (cacheSys buildDir pkgs index failing vcs gitErr)
        keepInstalled keepCurrent removeAll w).world,
      f ∈ w ∧ (f.isDir = true → retained keepInstalled keepCurrent removeAll
        (installedBasesOf StringSet.make pkgs)
        (if keepCurrent then inAURBasesOf StringSet.make ((cachedPackagesOf w).flatMap index)
          else StringSet.make) f.name = true) := by
    intro f hf
    have hdeleted := cleanAUR_deleted (cacheSys buildDir pkgs index failing vcs gitErr)
      keepInstalled keepCurrent removeAll w w w pkgs w ((cachedPackagesOf w).flatMap index)
      (hfp w) (hrd w) (fun _ => by rw [haur w]) hdel
    have hworld : (cleanAUR (cacheSys buildDir pkgs index failing vcs gitErr)
          keepInstalled keepCurrent removeAll w).world =
        w.filter (fun f => decide (buildDir ++ "/" ++ f.name ∉
          deletedPaths (cleanAUR (cacheSys buildDir pkgs index failing vcs gitErr)
            keepInstalled keepCurrent removeAll w).trace)) := by
      cases keepCurrent with
      | false =>
        rw [cleanAUR_of_not_keepCurrent _ _ _ w w w pkgs w (hfp w) (hrd w)] at hdel ⊢
        simp only [deletedPaths]
        exact cleanAURLoop_cacheSys_world _ _ _ _ _ _ _ _ _ _ _ _ _
          (fun ev hev => hdel ev (List.mem_cons_of_mem _ (List.mem_cons_of_mem _ hev)))
      | true =>
        rw [cleanAUR_of_keepCurrent _ _ _ w w w w pkgs w _ (hfp w) (hrd w) (haur w)] at hdel ⊢
        simp only [deletedPaths]
        exact cleanAURLoop_cacheSys_world _ _ _ _ _ _ _ _ _ _ _ _ _
          (fun ev hev => hdel ev
            (List.mem_cons_of_mem _ (List.mem_cons_of_mem _ (List.mem_cons_of_mem _ hev))))
    rw [hworld, hdeleted] at hf
    obtain ⟨hfw, hnot⟩ := List.mem_filter.mp hf
    refine ⟨hfw, fun hd => ?_⟩
    by_contra hr
    have hnot2 := of_decide_eq_true hnot
    apply hnot2
    refine List.mem_map.mpr ⟨f, List.mem_filter.mpr ⟨hfw, ?_⟩, rfl⟩
    simp [hd, hr]
  -- so the second run retains every directory it lists
  have hkeep : ∀ f ∈ (cleanAUR (cacheSys buildDir pkgs index failing vcs gitErr)
        keepInstalled keepCurrent removeAll w).world,
      f.isDir = true → retained keepInstalled keepCurrent removeAll
        (installedBasesOf StringSet.make pkgs)
        (if keepCurrent then inAURBasesOf StringSet.make
          ((cachedPackagesOf (cleanAUR (cacheSys buildDir pkgs index failing vcs gitErr)
            keepInstalled keepCurrent removeAll w).world).flatMap index)
          else StringSet.make) f.name = true := by
    intro f hf hd
    obtain ⟨hfw, hr⟩ := hleft f hf
    have hr1 := hr hd
    cases keepCurrent with
    | false => simpa using hr1
    | true =>
      cases removeAll with
      | true => simp [retained] at hr1
      | false =>
        simp only [retained, if_true, Bool.not_false, Bool.true_and, Bool.or_eq_true,
          Bool.and_eq_true, inAURBasesOf_Get] at hr1 ⊢
        rcases hr1 with h1 | h1
        · exact Or.inl h1
        · right
          rcases h1 with h1 | ⟨r, hrmem, hrbase⟩
          · simp [StringSet.make, StringSet.Get] at h1
          · right
            obtain ⟨n, hn, hrn⟩ := List.mem_flatMap.mp hrmem
            obtain ⟨r2, hr2, hr2base⟩ := hidx rfl rfl n hn r hrn
            refine ⟨r2, List.mem_flatMap.mpr ⟨f.name, ?_, ?_⟩, ?_⟩
            · rw [cachedPackagesOf_eq]
              exact List.mem_map.mpr ⟨f, List.mem_filter.mpr ⟨hf, by simpa using hd⟩, rfl⟩
            · rw [← hrbase]
              exact hr2
            · rw [hr2base, hrbase]
  generalize (cleanAUR (cacheSys buildDir pkgs index failing vcs gitErr)
    keepInstalled keepCurrent removeAll w).world = u at hkeep
  cases keepCurrent with
  | false =>
    rw [cleanAUR_of_not_keepCurrent _ _ _ u u u pkgs u (hfp u) (hrd u)]
    simp only [deletedPaths]
    rw [cleanAURLoop_nothing _ _ _ _ _ _ u u (by simpa using hkeep)]
    rfl
  | true =>
    rw [cleanAUR_of_keepCurrent _ _ _ u u u u pkgs u _ (hfp u) (hrd u) (haur u)]
    simp only [deletedPaths]
    rw [cleanAURLoop_nothing _ _ _ _ _ _ u u (by simpa using hkeep)]
    rfl

theorem performAll_append (S : Sys σ) (cs ds : List Call) (w : σ) :
    S.performAll (cs ++ ds) w =
      ((S.performAll cs w).1 ++ (S.performAll ds (S.performAll cs w).2).1,
        (S.performAll ds (S.performAll cs w).2).2) := by
  induction cs generalizing w with
  | nil => simp [Sys.performAll]
  | cons c cs ih => simp [Sys.performAll, ih]

/-- The trace of the loop of `cleanAUR` is the record of really making its
calls, one after the other, and the world returned is the one they leave. -/
theorem cleanAURLoop_faithful (S : Sys σ) (ki kc ra : Bool) (inst aur : StringSet)
    (files : List FileInfo) (w : σ) :
    S.performAll ((cleanAURLoop S ki kc ra inst aur files w).1.map Event.call) w =
      cleanAURLoop S ki kc ra inst aur files w := by
  induction files generalizing w with
  | nil => simp [cleanAURLoop, Sys.performAll]
  | cons file rest ih =>
    unfold cleanAURLoop
    split_ifs
    · exact ih w
    · exact ih w
    · exact ih w
    · rcases hrm : S.removeAll (S.join S.buildDir file.name) w with ⟨err, w1⟩
      cases err with
      | some err => simp [Sys.performAll, Sys.perform, Event.call, hrm]
      | none =>
        have := ih w1
        simp only [List.map_cons, Sys.performAll, Sys.perform, Event.call, hrm, this]

/-- The trace of `cleanAUR` is the record of really making its calls, one
after the other from the initial world, and the world returned is the one
they leave. -/
theorem cleanAUR_faithful (S : Sys σ) (ki kc ra : Bool) (w : σ) :
    S.performAll ((cleanAUR S ki kc ra w).trace.map Event.call) w =
      ((cleanAUR S ki kc ra w).trace, (cleanAUR S ki kc ra w).world) := by
  rcases hfp : S.filterPackages w with ⟨res, w1⟩
  cases res with
  | error err => simp [cleanAUR, hfp, Sys.performAll, Sys.perform, Event.call]
  | ok pkgs =>
    rcases hrd : S.readDir S.buildDir w1 with ⟨res2, w2⟩
    cases res2 with
    | error err => simp [cleanAUR, hfp, hrd, Sys.performAll, Sys.perform, Event.call]
    | ok files =>
      cases kc with
      | false =>
        rw [cleanAUR_of_not_keepCurrent S _ _ w w1 w2 pkgs files hfp hrd]
        simp only [List.map_cons, Sys.performAll, Sys.perform, Event.call, hfp, hrd,
          cleanAURLoop_faithful]
      | true =>
        rcases haur : S.aurInfo (cachedPackagesOf files) w2 with ⟨res3, w3⟩
        cases res3 with
        | error err =>
          simp [cleanAUR, hfp, hrd, haur, Sys.performAll, Sys.perform, Event.call]
        | ok info =>
          rw [cleanAUR_of_keepCurrent S _ _ w w1 w2 w3 pkgs files info hfp hrd haur]
          simp only [List.map_cons, Sys.performAll, Sys.perform, Event.call, hfp, hrd, haur,
            cleanAURLoop_faithful]

/-- The trace of `cleanAfter` is the record of really making its calls, one
after the other, and the world returned is the one they leave. -/
theorem cleanAfter_faithful (S : Sys σ) (bases : List Base) (w : σ) :
    S.performAll ((cleanAfter S bases w).1.map Event.call) w = cleanAfter S bases w := by
  induction bases generalizing w with
  | nil => simp [cleanAfter, Sys.performAll]
  | cons base rest ih =>
    unfold cleanAfter
    rcases hv : S.shouldUseGit (S.join S.buildDir base.pkgbase) w with ⟨b, w1⟩
    cases b with
    | true =>
      rcases hc : S.gitCapture (S.join S.buildDir base.pkgbase) ["reset", "--hard", "HEAD"] w1
        with ⟨e1, w2⟩
      rcases hs : S.gitShow (S.join S.buildDir base.pkgbase) ["clean", "-fx"] w2 with ⟨e2, w3⟩
      have := ih w3
      simp only [List.map_cons, Sys.performAll, Sys.perform, Event.call, hv, hc, hs, this]
    | false =>
      rcases hr : S.removeAll (S.join S.buildDir base.pkgbase) w1 with ⟨e, w2⟩
      have := ih w2
      simp only [List.map_cons, Sys.performAll, Sys.perform, Event.call, hv, hr, this]

theorem isFailedRemove_of_not_failed (ev : Event) (h : ev.failed = false) :
    ev.isFailedRemove = false := by
  cases ev with
  | removeAll path err =>
    cases err with
    | none => rfl
    | some e => simp [Event.failed] at h
  | _ => rfl

/-- When the deletions of the directories the loop of `cleanAUR` does not
retain all succeed on the collaborators, the loop is exactly those deletions,
made in listing order. -/
theorem cleanAURLoop_replay (S : Sys σ) (ki kc ra : Bool) (inst aur : StringSet)
    (files : List FileInfo) (w : σ)
    (hok : ∀ ev ∈ (S.performAll
      ((files.filter (fun f => f.isDir && !retained ki kc ra inst aur f.name)).map
        (fun f => Call.removeAll (S.join S.buildDir f.name))) w).1, ev.failed = false) :
    cleanAURLoop S ki kc ra inst aur files w =
      S.performAll ((files.filter (fun f => f.isDir && !retained ki kc ra inst aur f.name)).map
        (fun f => Call.removeAll (S.join S.buildDir f.name))) w := by
  induction files generalizing w with
  | nil => simp [cleanAURLoop, Sys.performAll]
  | cons file rest ih =>
    unfold cleanAURLoop
    split_ifs with h1 h2 h3
    · have hd : file.isDir = false := by simpa using h1
      have hf : (file.isDir && !retained ki kc ra inst aur file.name) = false := by simp [hd]
      simp only [List.filter_cons, hf, Bool.false_eq_true, if_false] at hok ⊢
      exact ih w hok
    · have hr : retained ki kc ra inst aur file.name = true := by simp [retained, h2]
      have hf : (file.isDir && !retained ki kc ra inst aur file.name) = false := by simp [hr]
      simp only [List.filter_cons, hf, Bool.false_eq_true, if_false] at hok ⊢
      exact ih w hok
    · have hr : retained ki kc ra inst aur file.name = true := by simp [retained, h3]
      have hf : (file.isDir && !retained ki kc ra inst aur file.name) = false := by simp [hr]
      simp only [List.filter_cons, hf, Bool.false_eq_true, if_false] at hok ⊢
      exact ih w hok
    · have hd : file.isDir = true := by simpa using h1
      have hr : retained ki kc ra inst aur file.name = false := by
        simp only [retained, Bool.or_eq_false_iff]
        exact ⟨by simpa using h2, by simpa using h3⟩
      have hf : (file.isDir && !retained ki kc ra inst aur file.name) = true := by simp [hd, hr]
      simp only [List.filter_cons, hf, if_true, List.map_cons, Sys.performAll, Sys.perform,
        List.mem_cons, forall_eq_or_imp] at hok ⊢
      rcases hrm : S.removeAll (S.join S.buildDir file.name) w with ⟨err, w1⟩
      rw [hrm] at hok
      cases err with
      | some err => simp [Event.failed] at hok
      | none =>
        simp only
        rw [ih w1 hok.2]

/-- When the two reads succeed, the remote query (if made) answers `info`,
and making the calls of `cleanAURCalls` for the directories not retained
meets no error, `cleanAUR` is exactly those calls and returns `nil`. -/
theorem cleanAUR_replay (S : Sys σ) (ki kc ra : Bool) (w w1 w2 : σ)
    (pkgs : List AlpmPackage) (files : List FileInfo) (info : List RpcPkg)
    (doomed : List FileInfo)
    (hfp : S.filterPackages w = (Except.ok pkgs, w1))
    (hrd : S.readDir S.buildDir w1 = (Except.ok files, w2))
    (hinfo : kc = true → (S.aurInfo (cachedPackagesOf files) w2).1 = Except.ok info)
    (hdoomed : doomed = files.filter (fun f => f.isDir &&
      !retained ki kc ra (installedBasesOf StringSet.make pkgs)
        (if kc then inAURBasesOf StringSet.make info else StringSet.make) f.name))
    (hok : ∀ ev ∈ (S.performAll (cleanAURCalls S kc files doomed) w).1, ev.failed = false) :
    cleanAUR S ki kc ra w =
      ⟨none, (S.performAll (cleanAURCalls S kc files doomed) w).1,
        (S.performAll (cleanAURCalls S kc files doomed) w).2⟩ := by
  subst hdoomed
  cases kc with
  | false =>
    simp only [cleanAURCalls, Bool.false_eq_true, if_false, List.nil_append, Sys.performAll,
      Sys.perform, hfp, hrd, List.mem_cons, forall_eq_or_imp] at hok ⊢
    rw [cleanAUR_of_not_keepCurrent S ki ra w w1 w2 pkgs files hfp hrd,
      cleanAURLoop_replay S ki false ra _ _ files w2 hok.2.2]
  | true =>
    rcases haur : S.aurInfo (cachedPackagesOf files) w2 with ⟨res, w3⟩
    have hres : res = Except.ok info := by simpa [haur] using hinfo rfl
    subst hres
    have hcalls : cleanAURCalls S true files (files.filter (fun f => f.isDir &&
        !retained ki true ra (installedBasesOf StringSet.make pkgs)
          (if true = true then inAURBasesOf StringSet.make info else StringSet.make) f.name)) =
        Call.filterPackages :: Call.readDir S.buildDir ::
          Call.aurInfo (cachedPackagesOf files) ::
          (files.filter (fun f => f.isDir &&
            !retained ki true ra (installedBasesOf StringSet.make pkgs)
              (inAURBasesOf StringSet.make info) f.name)).map
            (fun f => Call.removeAll (S.join S.buildDir f.name)) := by
      simp [cleanAURCalls, cachedPackagesOf_eq]
    rw [hcalls] at hok ⊢
    simp only [Sys.performAll, Sys.perform, hfp, hrd, haur, List.mem_cons,
      forall_eq_or_imp] at hok ⊢
    rw [cleanAUR_of_keepCurrent S ki ra w w1 w2 w3 pkgs files info hfp hrd haur,
      cleanAURLoop_replay S ki true ra _ _ files w3 hok.2.2.2]

theorem retained_eq_keptByTable (ki kc : Bool) (inst : StringSet) (info : List RpcPkg)
    (name : String) :
    retained ki kc false inst (if kc then inAURBasesOf StringSet.make info else StringSet.make)
      name = keptByTable ki kc inst info name := by
  cases kc with
  | false => simp [retained, keptByTable]
  | true =>
    rw [Bool.eq_iff_iff]
    simp only [retained, keptByTable, if_true, Bool.not_false, Bool.true_and, Bool.or_eq_true,
      Bool.and_eq_true, inAURBasesOf_Get, List.any_eq_true, decide_eq_true_eq]
    simp [StringSet.make, StringSet.Get]

theorem keptByTable_iff (ki kc : Bool) (inst : StringSet) (info : List RpcPkg)
    (name : String) :
    keptByTable ki kc inst info name = true ↔
      (ki = true ∧ inst.Get name = true) ∨ (kc = true ∧ ∃ r ∈ info, r.packageBase = name) := by
  simp [keptByTable]

theorem aurInfo_ok_of_replay (S : Sys σ) (w w1 w2 : σ) (pkgs : List AlpmPackage)
    (files doomed : List FileInfo)
    (hfp : S.filterPackages w = (Except.ok pkgs, w1))
    (hrd : S.readDir S.buildDir w1 = (Except.ok files, w2))
    (hok : ∀ ev ∈ (S.performAll (cleanAURCalls S true files doomed) w).1, ev.failed = false) :
    ∃ info, (S.aurInfo (cachedPackagesOf files) w2).1 = Except.ok info := by
  have hcalls : cleanAURCalls S true files doomed =
      Call.filterPackages :: Call.readDir S.buildDir :: Call.aurInfo (cachedPackagesOf files) ::
        doomed.map (fun f => Call.removeAll (S.join S.buildDir f.name)) := by
    simp [cleanAURCalls, cachedPackagesOf_eq]
  rw [hcalls] at hok
  simp only [Sys.performAll, Sys.perform, hfp, hrd, List.mem_cons, forall_eq_or_imp] at hok
  have h3 := hok.2.2.1
  cases hres : (S.aurInfo (cachedPackagesOf files) w2).1 with
  | error err =>
    rw [hres] at h3
    simp [Event.failed] at h3
  | ok info => exact ⟨info, rfl⟩

/-- C2: with `removeAll` on, whatever `keepInstalled`, `keepCurrent`, the
installed packages and the remote answer are: when the two reads succeed and
the collaborators meet no error on the calls listed (the reads, the remote
query under `keepCurrent`, one `os.RemoveAll` per directory child), then
`cleanAUR` makes exactly those calls on the collaborators, leaves the world
they leave, and the paths it deleted are exactly the paths of the directory
children of the cache root, in listing order; no other child is deleted. -/
theorem cleanAUR_removeAll_deletes_directories (S : Sys σ) (keepInstalled keepCurrent : Bool)
    (w w1 w2 : σ) (remotePackages : List AlpmPackage) (files : List FileInfo)
    (hfp : S.filterPackages w = (Except.ok remotePackages, w1))
    (hrd : S.readDir S.buildDir w1 = (Except.ok files, w2))
    (hok : ∀ ev ∈ (S.performAll
      (cleanAURCalls S keepCurrent files (files.filter (fun f => f.isDir))) w).1,
      ev.failed = false) :
    (cleanAUR S keepInstalled keepCurrent true w).trace =
        (S.performAll
          (cleanAURCalls S keepCurrent files (files.filter (fun f => f.isDir))) w).1 ∧
      (cleanAUR S keepInstalled keepCurrent true w).world =
        (S.performAll
          (cleanAURCalls S keepCurrent files (files.filter (fun f => f.isDir))) w).2 ∧
      deletedPaths (cleanAUR S keepInstalled keepCurrent true w).trace =
        (files.filter (fun f => f.isDir)).map (fun f => S.join S.buildDir f.name) := by
  have hinfo : ∃ info, keepCurrent = true →
      (S.aurInfo (cachedPackagesOf files) w2).1 = Except.ok info := by
    cases keepCurrent with
    | false => exact ⟨[], fun h => absurd h (by decide)⟩
    | true =>
      obtain ⟨info, hi⟩ := aurInfo_ok_of_replay S w w1 w2 remotePackages files _ hfp hrd hok
      exact ⟨info, fun _ => hi⟩
  obtain ⟨info, hinfo⟩ := hinfo
  have hrun := cleanAUR_replay S keepInstalled keepCurrent true w w1 w2 remotePackages files info
    (files.filter (fun f => f.isDir)) hfp hrd hinfo
    (by congr 1; funext f; simp [retained]) hok
  have htrace : (cleanAUR S keepInstalled keepCurrent true w).trace =
      (S.performAll
        (cleanAURCalls S keepCurrent files (files.filter (fun f => f.isDir))) w).1 := by
    rw [hrun]
  refine ⟨htrace, by rw [hrun], ?_⟩
  rw [cleanAUR_deleted S keepInstalled keepCurrent true w w1 w2 remotePackages files info
    hfp hrd hinfo
    (fun ev hev => isFailedRemove_of_not_failed ev (hok ev (by rw [← htrace]; exact hev)))]
  simp [retained]

/-- C3: with `removeAll` off, when the two reads succeed, the remote query
(made under `keepCurrent`) answers `info`, and the collaborators meet no error
on the calls listed (the reads, the query, one `os.RemoveAll` per directory
the retention table does not keep), then `cleanAUR` makes exactly those calls
on the collaborators and leaves the world they leave; and a directory entry
whose path no other listed directory shares escapes deletion exactly when
`keepInstalled` is on and its name is in `installedBases`, or `keepCurrent`
is on and its name is the package base of a record of `info`. -/
theorem cleanAUR_retention_table (S : Sys σ) (keepInstalled keepCurrent : Bool)
    (w w1 w2 : σ) (remotePackages : List AlpmPackage) (files : List FileInfo)
    (info : List RpcPkg)
    (hfp : S.filterPackages w = (Except.ok remotePackages, w1))
    (hrd : S.readDir S.buildDir w1 = (Except.ok files, w2))
    (hinfo : keepCurrent = true →
      (S.aurInfo (cachedPackagesOf files) w2).1 = Except.ok info)
    (hok : ∀ ev ∈ (S.performAll (cleanAURCalls S keepCurrent files
      (files.filter (fun f => f.isDir && !keptByTable keepInstalled keepCurrent
        (installedBasesOf StringSet.make remotePackages) info f.name))) w).1,
      ev.failed = false)
    (e : FileInfo) (he : e ∈ files) (hdir : e.isDir = true)
    (hjoin : ∀ f ∈ files, f.isDir = true →
      S.join S.buildDir f.name = S.join S.buildDir e.name → f.name = e.name) :
    (cleanAUR S keepInstalled keepCurrent false w).trace =
        (S.performAll (cleanAURCalls S keepCurrent files
          (files.filter (fun f => f.isDir && !keptByTable keepInstalled keepCurrent
            (installedBasesOf StringSet.make remotePackages) info f.name))) w).1 ∧
      (cleanAUR S keepInstalled keepCurrent false w).world =
        (S.performAll (cleanAURCalls S keepCurrent files
          (files.filter (fun f => f.isDir && !keptByTable keepInstalled keepCurrent
            (installedBasesOf StringSet.make remotePackages) info f.name))) w).2 ∧
      (S.join S.buildDir e.name ∉
          deletedPaths (cleanAUR S keepInstalled keepCurrent false w).trace ↔
        (keepInstalled = true ∧
            (installedBasesOf StringSet.make remotePackages).Get e.name = true) ∨
          (keepCurrent = true ∧ ∃ r ∈ info, r.packageBase = e.name)) := by
  have hrun := cleanAUR_replay S keepInstalled keepCurrent false w w1 w2 remotePackages files
    info _ hfp hrd hinfo
    (by congr 1; funext f; rw [retained_eq_keptByTable]) hok
  have htrace : (cleanAUR S keepInstalled keepCurrent false w).trace =
      (S.performAll (cleanAURCalls S keepCurrent files
        (files.filter (fun f => f.isDir && !keptByTable keepInstalled keepCurrent
          (installedBasesOf StringSet.make remotePackages) info f.name))) w).1 := by
    rw [hrun]
  refine ⟨htrace, by rw [hrun], ?_⟩
  rw [cleanAUR_deleted S keepInstalled keepCurrent false w w1 w2 remotePackages files info
    hfp hrd hinfo
    (fun ev hev => isFailedRemove_of_not_failed ev (hok ev (by rw [← htrace]; exact hev)))]
  rw [← keptByTable_iff, ← retained_eq_keptByTable]
  constructor
  · intro hnot
    by_contra hr
    apply hnot
    refine List.mem_map.mpr ⟨e, List.mem_filter.mpr ⟨he, ?_⟩, rfl⟩
    simp [hdir, hr]
  · intro hr hmem
    obtain ⟨f, hf, hfe⟩ := List.mem_map.mp hmem
    obtain ⟨hfiles, hf2⟩ := List.mem_filter.mp hf
    have hfd : f.isDir = true := by
      cases hd : f.isDir with
      | true => rfl
      | false => simp [hd] at hf2
    have hname : f.name = e.name := hjoin f hfiles hfd hfe
    rw [hname, hr] at hf2
    simp at hf2

/-- C6: in a run of `cleanAUR` that gets past the read of the cache root, the
trace is the record of really making its calls on the collaborators; among
them `aurInfo` is called once when `keepCurrent` is on and never when it is
off, whatever the other two flags; its argument is the list of the names of
the directory children of the root, in listing order, and the answer recorded
is the one `aurInfo` gave in the world the read left. -/
theorem cleanAUR_remote_query_once (S : Sys σ) (keepInstalled keepCurrent removeAll : Bool)
    (w w1 w2 : σ) (remotePackages : List AlpmPackage) (files : List FileInfo)
    (hfp : S.filterPackages w = (Except.ok remotePackages, w1))
    (hrd : S.readDir S.buildDir w1 = (Except.ok files, w2)) :
    S.performAll ((cleanAUR S keepInstalled keepCurrent removeAll w).trace.map Event.call) w =
        ((cleanAUR S keepInstalled keepCurrent removeAll w).trace,
          (cleanAUR S keepInstalled keepCurrent removeAll w).world) ∧
      aurInfoCalls (cleanAUR S keepInstalled keepCurrent removeAll w).trace =
        (if keepCurrent then [(files.filter (fun f => f.isDir)).map (fun f => f.name)]
          else []) ∧
      (keepCurrent = true → ∃ rest,
        (cleanAUR S keepInstalled keepCurrent removeAll w).trace =
          Event.filterPackages (Except.ok remotePackages) ::
            Event.readDir S.buildDir (Except.ok files) ::
            Event.aurInfo ((files.filter (fun f => f.isDir)).map (fun f => f.name))
              (S.aurInfo ((files.filter (fun f => f.isDir)).map (fun f => f.name)) w2).1 ::
            rest ∧ aurInfoCalls rest = []) := by
  refine ⟨cleanAUR_faithful S _ _ _ w, ?_, ?_⟩
  · cases keepCurrent with
    | false =>
      rw [cleanAUR_of_not_keepCurrent S _ _ w w1 w2 remotePackages files hfp hrd]
      simp only [aurInfoCalls, Bool.false_eq_true, if_false]
      exact (no_query_no_vcs_of_only_removeAll _
        (cleanAURLoop_only_removeAll S _ _ _ _ _ files w2)).1
    | true =>
      rcases haur : S.aurInfo (cachedPackagesOf files) w2 with ⟨res3, w3⟩
      cases res3 with
      | error err =>
        rw [← cachedPackagesOf_eq]
        simp [cleanAUR, hfp, hrd, haur, aurInfoCalls]
      | ok info =>
        rw [cleanAUR_of_keepCurrent S _ _ w w1 w2 w3 remotePackages files info hfp hrd haur]
        simp only [aurInfoCalls, if_true, cachedPackagesOf_eq]
        rw [(no_query_no_vcs_of_only_removeAll _
          (cleanAURLoop_only_removeAll S _ _ _ _ _ files w3)).1]
  · intro hkc
    subst hkc
    rw [← cachedPackagesOf_eq]
    rcases haur : S.aurInfo (cachedPackagesOf files) w2 with ⟨res3, w3⟩
    cases res3 with
    | error err =>
      exact ⟨[], by simp [cleanAUR, hfp, hrd, haur], rfl⟩
    | ok info =>
      rw [cleanAUR_of_keepCurrent S _ _ w w1 w2 w3 remotePackages files info hfp hrd haur]
      exact ⟨_, rfl, (no_query_no_vcs_of_only_removeAll _
        (cleanAURLoop_only_removeAll S _ _ _ _ _ files w3)).1⟩

/-- The loop of `cleanUntracked` on a listing whose entries `before` are
answered as given (every clean succeeding) and whose next entry `f` is a
checkout whose clean fails: the loop is exactly those calls and returns the
error. -/
theorem cleanUntrackedLoop_replay (S : Sys σ) (f : FileInfo) (after : List FileInfo)
    (err : Error) (hdir : f.isDir = true) (before : List (FileInfo × Bool)) (w : σ)
    (hrun : (S.performAll (untrackedCalls S before ++
        [Call.shouldUseGit (S.join S.buildDir f.name),
          Call.gitShow (S.join S.buildDir f.name) ["clean", "-fx"]]) w).1 =
      untrackedEvents S before ++
        [Event.shouldUseGit (S.join S.buildDir f.name) true,
          Event.gitShow (S.join S.buildDir f.name) ["clean", "-fx"] (some err)]) :
    cleanUntrackedLoop S (before.map Prod.fst ++ f :: after) w =
      ⟨some err,
        untrackedEvents S before ++
          [Event.shouldUseGit (S.join S.buildDir f.name) true,
            Event.gitShow (S.join S.buildDir f.name) ["clean", "-fx"] (some err)],
        (S.performAll (untrackedCalls S before ++
          [Call.shouldUseGit (S.join S.buildDir f.name),
            Call.gitShow (S.join S.buildDir f.name) ["clean", "-fx"]]) w).2⟩ := by
  induction before generalizing w with
  | nil =>
    simp only [untrackedCalls, untrackedEvents, List.nil_append, Sys.performAll, Sys.perform,
      List.cons.injEq, Event.shouldUseGit.injEq, Event.gitShow.injEq, true_and, and_true]
      at hrun ⊢
    simp only [List.map_nil, List.nil_append]
    unfold cleanUntrackedLoop
    rcases hv : S.shouldUseGit (S.join S.buildDir f.name) w with ⟨b, w1⟩
    rw [hv] at hrun
    rcases hg : S.gitShow (S.join S.buildDir f.name) ["clean", "-fx"] w1 with ⟨e, w2⟩
    simp only [hg] at hrun
    obtain ⟨hb, he⟩ := hrun
    subst hb he
    simp [hdir, hg]
  | cons entry rest ih =>
    obtain ⟨g, checkout⟩ := entry
    simp only [List.map_cons, List.cons_append]
    unfold cleanUntrackedLoop
    cases hg : g.isDir with
    | false =>
      simp only [untrackedCalls, untrackedEvents, hg, Bool.not_false, if_true] at hrun ⊢
      exact ih w hrun
    | true =>
      cases checkout with
      | false =>
        simp only [untrackedCalls, untrackedEvents, hg, Bool.not_true, Bool.false_eq_true,
          if_false, List.cons_append, Sys.performAll, Sys.perform, List.cons.injEq,
          Event.shouldUseGit.injEq, true_and] at hrun ⊢
        rcases hv : S.shouldUseGit (S.join S.buildDir g.name) w with ⟨b, w1⟩
        rw [hv] at hrun
        obtain ⟨hb, hrest⟩ := hrun
        simp only at hb hrest
        subst hb
        simp only [ih w1 hrest]
      | true =>
        simp only [untrackedCalls, untrackedEvents, hg, Bool.not_true, Bool.false_eq_true,
          if_false, if_true, List.cons_append, Sys.performAll, Sys.perform, List.cons.injEq,
          Event.shouldUseGit.injEq, Event.gitShow.injEq, true_and] at hrun ⊢
        rcases hv : S.shouldUseGit (S.join S.buildDir g.name) w with ⟨b, w1⟩
        rw [hv] at hrun
        simp only at hrun ⊢
        rcases hs : S.gitShow (S.join S.buildDir g.name) ["clean", "-fx"] w1 with ⟨e, w2⟩
        rw [hs] at hrun
        obtain ⟨hb, he, hrest⟩ := hrun
        simp only at hb he hrest
        subst hb he
        simp only [hs, ih w2 hrest]

/-- C7 as the code has it: when the collaborators, asked in this order, list
the cache root as `before`, `f`, `after`, answer the probes of the directories
of `before` as given with every clean succeeding, and then find the directory
`f` a checkout whose `git clean -fx` fails with `err`, `cleanUntracked`
makes exactly those calls and returns `err`: every directory listed before
`f` has been probed and, if a checkout, cleaned; the failed clean is the last
call; no entry listed after `f` is probed or cleaned. -/
theorem cleanUntracked_stops_at_failed_clean (S : Sys σ) (w : σ)
    (before : List (FileInfo × Bool)) (f : FileInfo) (after : List FileInfo) (err : Error)
    (hdir : f.isDir = true)
    (hrun : (S.performAll (Call.readDir S.buildDir :: (untrackedCalls S before ++
        [Call.shouldUseGit (S.join S.buildDir f.name),
          Call.gitShow (S.join S.buildDir f.name) ["clean", "-fx"]])) w).1 =
      Event.readDir S.buildDir (Except.ok (before.map Prod.fst ++ f :: after)) ::
        (untrackedEvents S before ++
          [Event.shouldUseGit (S.join S.buildDir f.name) true,
            Event.gitShow (S.join S.buildDir f.name) ["clean", "-fx"] (some err)])) :
    (cleanUntracked S w).result = some err ∧
      (cleanUntracked S w).trace =
        Event.readDir S.buildDir (Except.ok (before.map Prod.fst ++ f :: after)) ::
          (untrackedEvents S before ++
            [Event.shouldUseGit (S.join S.buildDir f.name) true,
              Event.gitShow (S.join S.buildDir f.name) ["clean", "-fx"] (some err)]) ∧
      (cleanUntracked S w).world =
        (S.performAll (Call.readDir S.buildDir :: (untrackedCalls S before ++
          [Call.shouldUseGit (S.join S.buildDir f.name),
            Call.gitShow (S.join S.buildDir f.name) ["clean", "-fx"]])) w).2 := by
  simp only [Sys.performAll, Sys.perform, List.cons.injEq, Event.readDir.injEq, true_and]
    at hrun ⊢
  rcases hrd : S.readDir S.buildDir w with ⟨res, w1⟩
  rw [hrd] at hrun
  obtain ⟨hres, hrest⟩ := hrun
  simp only at hres hrest
  subst hres
  have hloop := cleanUntrackedLoop_replay S f after err hdir before w1 hrest
  simp [cleanUntracked, hrd, hloop]

/-- C8: whatever the collaborators answer, the trace of `cleanAfter` is the
record of really making its calls on the collaborators, one after the other,
and those calls are, in input order, one block per package base: for an entry
the probe finds version-controlled, the probe, `git reset --hard HEAD` and
`git clean -fx` on its directory, whatever the reset returned; for an entry
the probe finds plain, the probe and `os.RemoveAll` of its directory.  No
entry is left out and no block has any other call. -/
theorem cleanAfter_trace (S : Sys σ) (bases : List Base) (w : σ) :
    S.performAll ((cleanAfter S bases w).1.map Event.call) w = cleanAfter S bases w ∧
      ∃ ds : List Disposal, ds.length = bases.length ∧
        (cleanAfter S bases w).1 =
          (bases.zip ds).flatMap (fun p => p.2.events (S.join S.buildDir p.1.pkgbase)) := by
  refine ⟨cleanAfter_faithful S bases w, ?_⟩
  induction bases generalizing w with
  | nil => exact ⟨[], rfl, rfl⟩
  | cons base rest ih =>
    unfold cleanAfter
    rcases hv : S.shouldUseGit (S.join S.buildDir base.pkgbase) w with ⟨b, w1⟩
    cases b with
    | true =>
      rcases hc : S.gitCapture (S.join S.buildDir base.pkgbase) ["reset", "--hard", "HEAD"] w1
        with ⟨e1, w2⟩
      rcases hs : S.gitShow (S.join S.buildDir base.pkgbase) ["clean", "-fx"] w2 with ⟨e2, w3⟩
      obtain ⟨ds, hlen, htr⟩ := ih w3
      refine ⟨Disposal.versionControlled e1 e2 :: ds, by simp [hlen], ?_⟩
      simp only [hc, hs, htr]
      simp [Disposal.events]
    | false =>
      rcases hr : S.removeAll (S.join S.buildDir base.pkgbase) w1 with ⟨e, w2⟩
      obtain ⟨ds, hlen, htr⟩ := ih w2
      refine ⟨Disposal.plain e :: ds, by simp [hlen], ?_⟩
      simp only [hr, htr]
      simp [Disposal.events]

/-- Paths built as `dir ++ "/" ++ name` tell names apart. -/
theorem path_injective (dir a b : String) (h : dir ++ "/" ++ a = dir ++ "/" ++ b) : a = b := by
  have h2 := congrArg String.data h
  simp only [String.data_append, List.append_cancel_left_eq] at h2
  exact String.ext h2

/-- C1 at a failing input: with `a` and `b` both due for removal, a failed
delete of `a` is the last call `cleanAUR` makes and the function returns
`nil`; `b` gets no delete attempt, though it gets one when `a` is deleted. -/
theorem cleanAUR_failed_delete_skips_later_entries :
    (cleanAUR (twoDirSys (fun p => if p = "/c/a" then some "permission denied" else none))
        false false false ()).trace =
      [Event.filterPackages (Except.ok []),
        Event.readDir "/c" (Except.ok [⟨"a", true⟩, ⟨"b", true⟩]),
        Event.removeAll "/c/a" (some "permission denied")] ∧
    (cleanAUR (twoDirSys (fun p => if p = "/c/a" then some "permission denied" else none))
        false false false ()).result = none ∧
    deletedPaths (cleanAUR (twoDirSys (fun _ => none)) false false false ()).trace =
      ["/c/a", "/c/b"] :=
  ⟨rfl, rfl, rfl⟩

/-- C5 on the demo cache root: an unreadable root, and an unreachable AUR
under `keepCurrent`, each come back as the error of `cleanAUR` with nothing
deleted. -/
theorem cleanAUR_fatal_before_disposal_witness :
    ((cleanAUR unreadableSys true false false ()).result = some "open /c: permission denied" ∧
        deletedPaths (cleanAUR unreadableSys true false false ()).trace = []) ∧
      ((cleanAUR offlineSys false true false ()).result = some "rpc: connection refused" ∧
        deletedPaths (cleanAUR offlineSys false true false ()).trace = []) :=
  ⟨cleanAUR_fatal_before_disposal unreadableSys true false false () () demoPkgs
      "open /c: permission denied" rfl (Or.inl rfl),
    cleanAUR_fatal_before_disposal offlineSys false true false () () demoPkgs
      "rpc: connection refused" rfl (Or.inr ⟨rfl, demoFiles, rfl, rfl⟩)⟩

/-- C7 refuted at a concrete input: `a` and `b` are both git checkouts, the
clean of `a` fails, and `cleanUntracked` returns without probing or cleaning
`b`. -/
theorem cleanUntracked_failed_clean_skips_later :
    brokenCheckoutSys.shouldUseGit "/c/b" () = (true, ()) ∧
      (cleanUntracked brokenCheckoutSys ()).trace =
        [Event.readDir "/c" (Except.ok [⟨"a", true⟩, ⟨"b", true⟩]),
          Event.shouldUseGit "/c/a" true,
          Event.gitShow "/c/a" ["clean", "-fx"] (some "exit status 1")] ∧
      cleanedDirs (cleanUntracked brokenCheckoutSys ()).trace = ["/c/a"] :=
  ⟨rfl, rfl, rfl⟩

/-- C10 refuted at a concrete input: the cache holds `bar` and `foo`, the
index knows only the package `bar`, of base `foo`, and only `keepCurrent` is
on.  The first run keeps `foo` and deletes `bar` without failure; the second
run, with the same flags and the same index, deletes `foo`. -/
theorem cleanAUR_second_run_deletes :
    deletedPaths (cleanAUR
        (cacheSys "/c" [] splitIndex (fun _ => none) (fun _ => false) (fun _ _ => none))
        false true false [⟨"bar", true⟩, ⟨"foo", true⟩]).trace = ["/c/bar"] ∧
      ((cleanAUR
        (cacheSys "/c" [] splitIndex (fun _ => none) (fun _ => false) (fun _ _ => none))
        false true false [⟨"bar", true⟩, ⟨"foo", true⟩]).trace.filter
          Event.isFailedRemove = []) ∧
      (cleanAUR
        (cacheSys "/c" [] splitIndex (fun _ => none) (fun _ => false) (fun _ _ => none))
        false true false [⟨"bar", true⟩, ⟨"foo", true⟩]).world = [⟨"foo", true⟩] ∧
      deletedPaths (cleanAUR
        (cacheSys "/c" [] splitIndex (fun _ => none) (fun _ => false) (fun _ _ => none))
        false true false
        (cleanAUR
          (cacheSys "/c" [] splitIndex (fun _ => none) (fun _ => false) (fun _ _ => none))
          false true false [⟨"bar", true⟩, ⟨"foo", true⟩]).world).trace = ["/c/foo"] :=
  ⟨rfl, rfl, rfl, rfl⟩

/-- C10 as the code has it, on the demo cache root with both keep flags on:
the first run deletes `baz`, and the second run deletes nothing. -/
theorem cleanAUR_second_run_deletes_nothing_witness :
    deletedPaths (cleanAUR
        (cacheSys "/c" demoPkgs demoIndex (fun _ => none) (fun _ => false) (fun _ _ => none))
        true true false demoFiles).trace = ["/c/baz"] ∧
      deletedPaths (cleanAUR
        (cacheSys "/c" demoPkgs demoIndex (fun _ => none) (fun _ => false) (fun _ _ => none))
        true true false
        (cleanAUR
          (cacheSys "/c" demoPkgs demoIndex (fun _ => none) (fun _ => false) (fun _ _ => none))
          true true false demoFiles).world).trace = [] :=
  ⟨rfl, cleanAUR_second_run_deletes_nothing "/c" demoPkgs demoIndex (fun _ => none)
    (fun _ => false) (fun _ _ => none) true true false demoFiles
    (fun _ _ => by decide) (by decide)⟩

/-- C2 on the demo cache root: with every flag on, the three directories are
deleted, the installed `foo` and the published `bar` included; the stray file
is not, and it is all that is left in the cache root. -/
theorem cleanAUR_removeAll_deletes_directories_witness :
    deletedPaths (cleanAUR demoCacheSys true true true demoFiles).trace =
        ["/c/bar", "/c/baz", "/c/foo"] ∧
      (cleanAUR demoCacheSys true true true demoFiles).world = [⟨"notes.txt", false⟩] :=
  ⟨(cleanAUR_removeAll_deletes_directories demoCacheSys true true demoFiles demoFiles demoFiles
      demoPkgs demoFiles rfl rfl (by decide)).2.2,
    (cleanAUR_removeAll_deletes_directories demoCacheSys true true demoFiles demoFiles demoFiles
      demoPkgs demoFiles rfl rfl (by decide)).2.1⟩

/-- C3 on the demo cache root with both keep flags on: the installed `foo`
escapes deletion, `baz`, neither installed nor published, does not, and the
cache root is left without `baz`. -/
theorem cleanAUR_retention_table_witness :
    "/c/foo" ∉ deletedPaths (cleanAUR demoCacheSys true true false demoFiles).trace ∧
      "/c/baz" ∈ deletedPaths (cleanAUR demoCacheSys true true false demoFiles).trace ∧
      (cleanAUR demoCacheSys true true false demoFiles).world =
        [⟨"bar", true⟩, ⟨"foo", true⟩, ⟨"notes.txt", false⟩] :=
  ⟨(cleanAUR_retention_table demoCacheSys true true demoFiles demoFiles demoFiles demoPkgs
      demoFiles [⟨"bar", "bar"⟩] rfl rfl (fun _ => rfl) (by decide) ⟨"foo", true⟩ (by decide) rfl
      (fun f _ _ h => path_injective "/c" f.name "foo" h)).2.2.mpr (Or.inl ⟨rfl, by decide⟩),
    Decidable.byContradiction fun h => absurd
      ((cleanAUR_retention_table demoCacheSys true true demoFiles demoFiles demoFiles demoPkgs
        demoFiles [⟨"bar", "bar"⟩] rfl rfl (fun _ => rfl) (by decide) ⟨"baz", true⟩ (by decide)
        rfl (fun f _ _ h => path_injective "/c" f.name "baz" h)).2.2.mp h) (by decide),
    (cleanAUR_retention_table demoCacheSys true true demoFiles demoFiles demoFiles demoPkgs
      demoFiles [⟨"bar", "bar"⟩] rfl rfl (fun _ => rfl) (by decide) ⟨"foo", true⟩ (by decide) rfl
      (fun f _ _ h => path_injective "/c" f.name "foo" h)).2.1⟩

/-- C6 on the demo cache root: one query for `bar`, `baz`, `foo` under
`keepCurrent`, none without it; and when the AUR cannot be reached the one
query is recorded with the error it met. -/
theorem cleanAUR_remote_query_once_witness :
    aurInfoCalls (cleanAUR demoSys false true false ()).trace = [["bar", "baz", "foo"]] ∧
      aurInfoCalls (cleanAUR demoSys true false true ()).trace = [] ∧
      (cleanAUR offlineSys false true false ()).trace =
        [Event.filterPackages (Except.ok demoPkgs), Event.readDir "/c" (Except.ok demoFiles),
          Event.aurInfo ["bar", "baz", "foo"] (Except.error "rpc: connection refused")] :=
  ⟨(cleanAUR_remote_query_once demoSys false true false () () () demoPkgs demoFiles
      rfl rfl).2.1,
    (cleanAUR_remote_query_once demoSys true false true () () () demoPkgs demoFiles rfl rfl).2.1,
    rfl⟩

/-- C7 as the code has it, on a cache root listing `a`, a stray file, `p`,
`b`, `c`: the checkout `a` is cleaned and the plain `p` probed, the clean of
`b` fails and is the last call, `c` is not touched, and the error is
returned. -/
theorem cleanUntracked_stops_at_failed_clean_witness :
    (cleanUntracked mixedCheckoutSys ()).result = some "exit status 1" ∧
      (cleanUntracked mixedCheckoutSys ()).trace =
        [Event.readDir "/c" (Except.ok
            [⟨"a", true⟩, ⟨"notes.txt", false⟩, ⟨"p", true⟩, ⟨"b", true⟩, ⟨"c", true⟩]),
          Event.shouldUseGit "/c/a" true,
          Event.gitShow "/c/a" ["clean", "-fx"] none,
          Event.shouldUseGit "/c/p" false,
          Event.shouldUseGit "/c/b" true,
          Event.gitShow "/c/b" ["clean", "-fx"] (some "exit status 1")] :=
  ⟨(cleanUntracked_stops_at_failed_clean mixedCheckoutSys ()
      [(⟨"a", true⟩, true), (⟨"notes.txt", false⟩, false), (⟨"p", true⟩, false)]
      ⟨"b", true⟩ [⟨"c", true⟩] "exit status 1" rfl rfl).1,
    (cleanUntracked_stops_at_failed_clean mixedCheckoutSys ()
      [(⟨"a", true⟩, true), (⟨"notes.txt", false⟩, false), (⟨"p", true⟩, false)]
      ⟨"b", true⟩ [⟨"c", true⟩] "exit status 1" rfl rfl).2.1⟩

/-- C8 on a concrete input: `bar` is a checkout whose reset fails, `baz` a
plain directory.  `cleanAfter` resets and then cleans `bar`, deletes `baz`,
and its trace is the record of those calls. -/
theorem cleanAfter_trace_witness :
    (cleanAfter afterSys [⟨"bar"⟩, ⟨"baz"⟩] ()).1 =
        [Event.shouldUseGit "/c/bar" true,
          Event.gitCapture "/c/bar" ["reset", "--hard", "HEAD"] (some "exit status 128"),
          Event.gitShow "/c/bar" ["clean", "-fx"] none,
          Event.shouldUseGit "/c/baz" false,
          Event.removeAll "/c/baz" none] ∧
      afterSys.performAll
          [Call.shouldUseGit "/c/bar", Call.gitCapture "/c/bar" ["reset", "--hard", "HEAD"],
            Call.gitShow "/c/bar" ["clean", "-fx"], Call.shouldUseGit "/c/baz",
            Call.removeAll "/c/baz"] () =
        cleanAfter afterSys [⟨"bar"⟩, ⟨"baz"⟩] () :=
  ⟨rfl, (cleanAfter_trace afterSys [⟨"bar"⟩, ⟨"baz"⟩] ()).1⟩

end Yay
